import Mathlib

set_option maxRecDepth 100000
set_option maxHeartbeats 1000000

/-!
Shallow embedding of the Quoridor rules engine (src/maze.py) and proofs
about its specification.  Board cells are integer pairs (row, col) on a
9 by 9 grid; wall sets are finite sets of blocker units exactly as the
Python sets horizontal_walls and vertical_walls.
-/

namespace Quoridor

abbrev Cell := ℤ × ℤ

/-- The board side length, BOARD_SIZE = 9 in the source. -/
def boardSize : ℤ := 9

/-- Bounds check 0 <= r < BOARD_SIZE and 0 <= c < BOARD_SIZE, as written at
lines 125, 145, 149 and 211 of maze.py. -/
def inBounds (r c : ℤ) : Prop := 0 ≤ r ∧ r < boardSize ∧ 0 ≤ c ∧ c < boardSize

instance (r c : ℤ) : Decidable (inBounds r c) := by
  unfold inBounds; infer_instance

/-- The four orthogonal directions, in source order Up, Down, Left, Right. -/
def directions : List (ℤ × ℤ) := [(-1, 0), (1, 0), (0, -1), (0, 1)]

/-- The wall-blockage test repeated at maze.py lines 129-136 (from the mover's
cell), 164-171 (the second half of a straight jump) and 215-222 (inside BFS):
a step from (r, c) in direction (dr, dc) is blocked when the corresponding
blocker unit lies in the horizontal or vertical wall set. -/
def wallBlocked (H V : Finset Cell) (r c dr dc : ℤ) : Prop :=
  (dr = -1 ∧ (r - 1, c) ∈ H) ∨ (dr = 1 ∧ (r, c) ∈ H) ∨
  (dc = -1 ∧ (r, c - 1) ∈ V) ∨ (dc = 1 ∧ (r, c) ∈ V)

instance (H V : Finset Cell) (r c dr dc : ℤ) : Decidable (wallBlocked H V r c dr dc) := by
  unfold wallBlocked; infer_instance

/-- The goal test of maze.py lines 200-201 and 307-308: the win row is set and
equals r, or the win column is set and equals c. -/
def atGoal (gr gc : Option ℤ) (r c : ℤ) : Prop := gr = some r ∨ gc = some c

instance (gr gc : Option ℤ) (r c : ℤ) : Decidable (atGoal gr gc r c) := by
  unfold atGoal; infer_instance

inductive WallType
  | horizontal
  | vertical
deriving DecidableEq

/-- The rule-relevant state of QuoridorGame: player positions, goal rows and
columns, wall inventories, per-player placed-wall records, the two wall sets,
the current player, the game-over flag and the winner. -/
structure GameState where
  numPlayers : ℕ
  playerPositions : List Cell
  winRows : List (Option ℤ)
  winCols : List (Option ℤ)
  wallsRemaining : List ℤ
  playerWalls : List (List (WallType × ℤ × ℤ))
  horizontalWalls : Finset Cell
  verticalWalls : Finset Cell
  currentPlayer : ℕ
  gameOver : Bool
  winner : Option ℕ
deriving DecidableEq

/-- initialize_game (maze.py lines 75-111): starting positions, goal rows and
columns and wall counts are the four-entry literals sliced to num_players;
walls are empty, player 0 starts, the game is not over. -/
def initialize_game (n : ℕ) : GameState where
  numPlayers := n
  playerPositions := [(8, 4), (0, 4), (4, 0), (4, 8)].take n
  winRows := [some 0, some 8, none, none].take n
  winCols := [none, none, some 8, some 0].take n
  wallsRemaining := [10, 10, 5, 5].take n
  playerWalls := List.replicate n []
  horizontalWalls := ∅
  verticalWalls := ∅
  currentPlayer := 0
  gameOver := false
  winner := none

/-- The inner loop body of the diagonal-jump fallback (maze.py lines 147-160):
given the occupied neighbour (nr, nc) and a side direction, append the side
cell when it is in bounds, not wall-blocked from the neighbour, and
unoccupied. -/
def diag_step (s : GameState) (nr nc : ℤ) (acc : List Cell) (sd : ℤ × ℤ) : List Cell :=
  if inBounds (nr + sd.1) (nc + sd.2) then
    if wallBlocked s.horizontalWalls s.verticalWalls nr nc sd.1 sd.2 then acc
    else if (nr + sd.1, nc + sd.2) ∈ s.playerPositions then acc
    else acc ++ [(nr + sd.1, nc + sd.2)]
  else acc

/-- The side-direction list of maze.py line 147, transcribed verbatim:
[(-dr, dc), (dr, -dc)] if dr != 0 and dc != 0 else [(dr+1, dc), (dr-1, dc)]
if dr != 0 else [(dr, dc+1), (dr, dc-1)]. -/
def side_dirs (dr dc : ℤ) : List (ℤ × ℤ) :=
  if dr ≠ 0 ∧ dc ≠ 0 then [(-dr, dc), (dr, -dc)]
  else if dr ≠ 0 then [(dr + 1, dc), (dr - 1, dc)]
  else [(dr, dc + 1), (dr, dc - 1)]

/-- One iteration of the direction loop of get_possible_moves (maze.py lines
121-179): the list of destinations this direction contributes. -/
def moves_in_dir (s : GameState) (d : ℤ × ℤ) : List Cell :=
  let p := s.playerPositions.getD s.currentPlayer (0, 0)
  let nr := p.1 + d.1
  let nc := p.2 + d.2
  if ¬ inBounds nr nc then []
  else if wallBlocked s.horizontalWalls s.verticalWalls p.1 p.2 d.1 d.2 then []
  else if (nr, nc) ∈ s.playerPositions then
    if ¬ inBounds (nr + d.1) (nc + d.2) then
      (side_dirs d.1 d.2).foldl (diag_step s nr nc) []
    else if wallBlocked s.horizontalWalls s.verticalWalls nr nc d.1 d.2 then []
    else if (nr + d.1, nc + d.2) ∈ s.playerPositions then []
    else [(nr + d.1, nc + d.2)]
  else [(nr, nc)]

/-- get_possible_moves (maze.py lines 113-181): the concatenation of the four
direction contributions, in source order. -/
def get_possible_moves (s : GameState) : List Cell :=
  directions.flatMap (moves_in_dir s)

/-- One step of the BFS frontier expansion of find_path_to_goal (maze.py lines
204-227): for one direction, if the neighbour is in bounds, not wall-blocked
and unvisited, push it on the queue and mark it visited. -/
def bfs_step (H V : Finset Cell) (r c : ℤ) (qv : List Cell × Finset Cell) (d : ℤ × ℤ) :
    List Cell × Finset Cell :=
  if inBounds (r + d.1) (c + d.2) ∧ ¬ wallBlocked H V r c d.1 d.2 ∧ (r + d.1, c + d.2) ∉ qv.2
  then (qv.1 ++ [(r + d.1, c + d.2)], insert (r + d.1, c + d.2) qv.2)
  else qv

/-- Expansion of one popped cell over a list of directions. -/
def bfs_expand (H V : Finset Cell) (r c : ℤ) (ds : List (ℤ × ℤ))
    (qv : List Cell × Finset Cell) : List Cell × Finset Cell :=
  ds.foldl (bfs_step H V r c) qv

/-- The while loop of find_path_to_goal (maze.py lines 196-229): pop the queue
front, return true at a goal cell, otherwise expand the four neighbours.  A
fuel argument bounds the iteration count; 200 exceeds the largest possible
number of pops on a 9 by 9 board, so the fuel never runs out. -/
def bfsAux (H V : Finset Cell) (gr gc : Option ℤ) :
    ℕ → List Cell → Finset Cell → Bool
  | 0, _, _ => false
  | _ + 1, [], _ => false
  | fuel + 1, (r, c) :: rest, visited =>
      if atGoal gr gc r c then true
      else
        let qv := bfs_expand H V r c directions (rest, visited)
        bfsAux H V gr gc fuel qv.1 qv.2

/-- find_path_to_goal (maze.py lines 183-229) for a given start cell and goal
predicate: BFS from the start with the queue and visited set both initialised
to the start cell. -/
def find_path_from (H V : Finset Cell) (gr gc : Option ℤ) (p : Cell) : Bool :=
  bfsAux H V gr gc 200 [p] {p}

/-- find_path_to_goal(player_idx, test_walls_h, test_walls_v): run the BFS from
player i's current cell toward player i's goal under the given wall sets. -/
def find_path_to_goal (s : GameState) (i : ℕ) (H V : Finset Cell) : Bool :=
  find_path_from H V (s.winRows.getD i none) (s.winCols.getD i none)
    (s.playerPositions.getD i (0, 0))

/-- The anchor bounds check of is_valid_wall_placement (maze.py line 234):
0 <= r < BOARD_SIZE - 1 and 0 <= c < BOARD_SIZE - 1. -/
def wall_in_bounds (r c : ℤ) : Prop :=
  0 ≤ r ∧ r < boardSize - 1 ∧ 0 ≤ c ∧ c < boardSize - 1

instance (r c : ℤ) : Decidable (wall_in_bounds r c) := by
  unfold wall_in_bounds; infer_instance

/-- The wall-already-exists check of is_valid_wall_placement (maze.py lines
237-243). -/
def wall_overlaps (s : GameState) (r c : ℤ) : WallType → Prop
  | .horizontal => (r, c) ∈ s.horizontalWalls ∨ (r, c + 1) ∈ s.horizontalWalls
  | .vertical => (r, c) ∈ s.verticalWalls ∨ (r + 1, c) ∈ s.verticalWalls

instance (s : GameState) (r c : ℤ) (t : WallType) : Decidable (wall_overlaps s r c t) := by
  cases t <;> (unfold wall_overlaps; infer_instance)

/-- The intersecting-wall check of is_valid_wall_placement (maze.py lines
245-249). -/
def wall_crosses (s : GameState) (r c : ℤ) : WallType → Prop
  | .horizontal => (r, c) ∈ s.verticalWalls ∧ (r + 1, c) ∈ s.verticalWalls
  | .vertical => (r, c) ∈ s.horizontalWalls ∧ (r, c + 1) ∈ s.horizontalWalls

instance (s : GameState) (r c : ℤ) (t : WallType) : Decidable (wall_crosses s r c t) := by
  cases t <;> (unfold wall_crosses; infer_instance)

/-- The trial horizontal wall set built at maze.py lines 252-257. -/
def trial_h (s : GameState) (r c : ℤ) (t : WallType) : Finset Cell :=
  if t = .horizontal then insert (r, c + 1) (insert (r, c) s.horizontalWalls)
  else s.horizontalWalls

/-- The trial vertical wall set built at maze.py lines 252-260. -/
def trial_v (s : GameState) (r c : ℤ) (t : WallType) : Finset Cell :=
  if t = .vertical then insert (r + 1, c) (insert (r, c) s.verticalWalls)
  else s.verticalWalls

/-- The skip test of maze.py lines 265-266: player i already stands on the row
or column of their goal. -/
def player_on_goal (s : GameState) (i : ℕ) : Prop :=
  atGoal (s.winRows.getD i none) (s.winCols.getD i none)
    (s.playerPositions.getD i (0, 0)).1 (s.playerPositions.getD i (0, 0)).2

instance (s : GameState) (i : ℕ) : Decidable (player_on_goal s i) := by
  unfold player_on_goal; infer_instance

/-- The path-preservation loop of is_valid_wall_placement (maze.py lines
262-272): every player either already stands on their goal or can still reach
it under the trial wall sets. -/
def wall_paths_ok (s : GameState) (r c : ℤ) (t : WallType) : Bool :=
  (List.range s.numPlayers).all fun i =>
    if player_on_goal s i then true
    else find_path_to_goal s i (trial_h s r c t) (trial_v s r c t)

/-- is_valid_wall_placement (maze.py lines 231-272): bounds, overlap and
crossing checks in source order, then the BFS-based path check. -/
def is_valid_wall_placement (s : GameState) (r c : ℤ) (t : WallType) : Bool :=
  if ¬ wall_in_bounds r c then false
  else if wall_overlaps s r c t then false
  else if wall_crosses s r c t then false
  else wall_paths_ok s r c t

/-- next_turn (maze.py lines 317-324): if the game is not over, advance the
current player cyclically. -/
def next_turn (s : GameState) : GameState :=
  if s.gameOver then s
  else { s with currentPlayer := (s.currentPlayer + 1) % s.numPlayers }

/-- place_wall (maze.py lines 274-295): reject when the current player has no
walls left or the placement is invalid; otherwise add both blocker units,
record ownership, decrement the inventory and advance the turn. -/
def place_wall (s : GameState) (r c : ℤ) (t : WallType) : Bool × GameState :=
  if s.wallsRemaining.getD s.currentPlayer 0 ≤ 0 then (false, s)
  else if ¬ is_valid_wall_placement s r c t then (false, s)
  else
    let s1 : GameState :=
      match t with
      | .horizontal =>
          { s with
            horizontalWalls := insert (r, c + 1) (insert (r, c) s.horizontalWalls)
            playerWalls := s.playerWalls.set s.currentPlayer
              (s.playerWalls.getD s.currentPlayer [] ++ [(WallType.horizontal, r, c)]) }
      | .vertical =>
          { s with
            verticalWalls := insert (r + 1, c) (insert (r, c) s.verticalWalls)
            playerWalls := s.playerWalls.set s.currentPlayer
              (s.playerWalls.getD s.currentPlayer [] ++ [(WallType.vertical, r, c)]) }
    let s2 : GameState :=
      { s1 with
        wallsRemaining := s.wallsRemaining.set s.currentPlayer
          (s.wallsRemaining.getD s.currentPlayer 0 - 1) }
    (true, next_turn s2)

/-- move_player (maze.py lines 297-315): reject a destination outside the
possible-move list; otherwise update the current player's position, and either
record the win or advance the turn. -/
def move_player (s : GameState) (r c : ℤ) : Bool × GameState :=
  if (r, c) ∉ get_possible_moves s then (false, s)
  else
    let s1 : GameState :=
      { s with playerPositions := s.playerPositions.set s.currentPlayer (r, c) }
    if atGoal (s.winRows.getD s.currentPlayer none) (s.winCols.getD s.currentPlayer none) r c
    then (true, { s1 with gameOver := true, winner := some s.currentPlayer })
    else (true, next_turn s1)

/-- States reachable from initialize_game by any sequence of move_player and
place_wall calls (failed calls leave the state unchanged, so including them
changes nothing). -/
inductive Reachable (n : ℕ) : GameState → Prop
  | init : Reachable n (initialize_game n)
  | move (s : GameState) (r c : ℤ) : Reachable n s → Reachable n (move_player s r c).2
  | wall (s : GameState) (r c : ℤ) (t : WallType) :
      Reachable n s → Reachable n (place_wall s r c t).2

/-- Fold a list of move commands through move_player, keeping the state. -/
def play_moves (s : GameState) (ms : List Cell) : GameState :=
  ms.foldl (fun s m => (move_player s m.1 m.2).2) s

/-- A single legal pathfinding step as the spec describes it: an orthogonal
unit move to an in-bounds cell not blocked by a wall of the given sets. -/
def move_step (H V : Finset Cell) (a b : Cell) : Prop :=
  ∃ d ∈ directions, b = (a.1 + d.1, a.2 + d.2) ∧ inBounds b.1 b.2 ∧
    ¬ wallBlocked H V a.1 a.2 d.1 d.2

/-- There is a sequence of legal steps from p to some cell satisfying the goal
predicate. -/
def reaches_goal (H V : Finset Cell) (gr gc : Option ℤ) (p : Cell) : Prop :=
  ∃ q : Cell, Relation.ReflTransGen (move_step H V) p q ∧ atGoal gr gc q.1 q.2

/-- The cells the BFS can ever visit: the 81 board cells plus the start cell. -/
def allowed_cells (p : Cell) : Finset Cell :=
  insert p ((Finset.Icc (0 : ℤ) 8) ×ˢ (Finset.Icc (0 : ℤ) 8))

lemma mem_allowed_of_inBounds (p x : Cell) (h : inBounds x.1 x.2) : x ∈ allowed_cells p := by
  unfold inBounds boardSize at h
  apply Finset.mem_insert_of_mem
  rw [Finset.mem_product, Finset.mem_Icc, Finset.mem_Icc]
  omega

lemma allowed_cells_card (p : Cell) : (allowed_cells p).card ≤ 82 := by
  unfold allowed_cells
  have h1 := Finset.card_insert_le p ((Finset.Icc (0 : ℤ) 8) ×ˢ (Finset.Icc (0 : ℤ) 8))
  have h2 : ((Finset.Icc (0 : ℤ) 8) ×ˢ (Finset.Icc (0 : ℤ) 8)).card = 81 := by
    rw [Finset.card_product, Int.card_Icc]
    rfl
  omega

lemma bfs_expand_spec (H V : Finset Cell) (r c : ℤ) (ds : List (ℤ × ℤ)) :
    ∀ q v, ∃ l : List Cell,
      bfs_expand H V r c ds (q, v) = (q ++ l, v ∪ l.toFinset) ∧
      l.Nodup ∧ (∀ x ∈ l, x ∉ v) ∧
      (∀ x ∈ l, ∃ d ∈ ds, x = (r + d.1, c + d.2) ∧ inBounds x.1 x.2 ∧
        ¬ wallBlocked H V r c d.1 d.2) ∧
      (∀ d ∈ ds, inBounds (r + d.1) (c + d.2) → ¬ wallBlocked H V r c d.1 d.2 →
        (r + d.1, c + d.2) ∈ v ∪ l.toFinset) := by
  induction ds with
  | nil =>
      intro q v
      refine ⟨[], ?_, by simp, by simp, by simp, by simp⟩
      simp [bfs_expand]
  | cons d ds ih =>
      intro q v
      have hstep : bfs_expand H V r c (d :: ds) (q, v) =
          bfs_expand H V r c ds (bfs_step H V r c (q, v) d) := rfl
      by_cases hc : inBounds (r + d.1) (c + d.2) ∧ ¬ wallBlocked H V r c d.1 d.2 ∧
          (r + d.1, c + d.2) ∉ v
      · obtain ⟨l, heq, hnd, hfresh, hnbr, hcl⟩ :=
          ih (q ++ [(r + d.1, c + d.2)]) (insert (r + d.1, c + d.2) v)
        have hbs : bfs_step H V r c (q, v) d =
            (q ++ [(r + d.1, c + d.2)], insert (r + d.1, c + d.2) v) := by
          simp only [bfs_step, if_pos hc]
        refine ⟨(r + d.1, c + d.2) :: l, ?_, ?_, ?_, ?_, ?_⟩
        · rw [hstep, hbs, heq]
          refine Prod.ext ?_ ?_
          · simp
          · simp only [List.toFinset_cons]
            rw [Finset.insert_union, Finset.union_insert]
        · refine List.Nodup.cons ?_ hnd
          intro hmem
          exact hfresh _ hmem (Finset.mem_insert_self _ _)
        · intro x hx
          rcases List.mem_cons.mp hx with rfl | hx
          · exact hc.2.2
          · intro hv
            exact hfresh _ hx (Finset.mem_insert_of_mem hv)
        · intro x hx
          rcases List.mem_cons.mp hx with rfl | hx
          · exact ⟨d, List.mem_cons_self _ _, rfl, hc.1, hc.2.1⟩
          · obtain ⟨d1, hd1, hx1, hx2, hx3⟩ := hnbr x hx
            exact ⟨d1, List.mem_cons_of_mem _ hd1, hx1, hx2, hx3⟩
        · intro d1 hd1 hb hw
          rcases List.mem_cons.mp hd1 with rfl | hd1
          · simp
          · have := hcl d1 hd1 hb hw
            rw [Finset.mem_union, Finset.mem_insert] at this
            simp only [List.toFinset_cons, Finset.union_insert, Finset.mem_insert,
              Finset.mem_union]
            tauto
      · obtain ⟨l, heq, hnd, hfresh, hnbr, hcl⟩ := ih q v
        have hbs : bfs_step H V r c (q, v) d = (q, v) := by
          simp only [bfs_step, if_neg hc]
        refine ⟨l, by rw [hstep, hbs, heq], hnd, hfresh, ?_, ?_⟩
        · intro x hx
          obtain ⟨d1, hd1, hx1, hx2, hx3⟩ := hnbr x hx
          exact ⟨d1, List.mem_cons_of_mem _ hd1, hx1, hx2, hx3⟩
        · intro d1 hd1 hb hw
          rcases List.mem_cons.mp hd1 with rfl | hd1
          · push_neg at hc
            exact Finset.mem_union_left _ (hc hb hw)
          · exact hcl d1 hd1 hb hw

/-- The loop invariant of the BFS of find_path_to_goal. -/
structure BfsInv (H V : Finset Cell) (gr gc : Option ℤ) (p : Cell)
    (queue : List Cell) (visited : Finset Cell) : Prop where
  start_mem : p ∈ visited
  queue_sub : ∀ x ∈ queue, x ∈ visited
  queue_nodup : queue.Nodup
  vis_reach : ∀ x ∈ visited, Relation.ReflTransGen (move_step H V) p x
  vis_closed : ∀ x ∈ visited, x ∉ queue →
    ¬ atGoal gr gc x.1 x.2 ∧ ∀ y, move_step H V x y → y ∈ visited
  vis_allowed : visited ⊆ allowed_cells p

lemma reach_mem_of_closed (H V : Finset Cell) (p : Cell) (visited : Finset Cell)
    (hp : p ∈ visited)
    (hcl : ∀ x ∈ visited, ∀ y, move_step H V x y → y ∈ visited) :
    ∀ q, Relation.ReflTransGen (move_step H V) p q → q ∈ visited := by
  intro q h
  induction h with
  | refl => exact hp
  | tail _ hstep ih => exact hcl _ ih _ hstep

lemma not_reaches_of_inv_nil (H V : Finset Cell) (gr gc : Option ℤ) (p : Cell)
    (visited : Finset Cell) (hinv : BfsInv H V gr gc p [] visited) :
    ¬ reaches_goal H V gr gc p := by
  rintro ⟨q, hq, hg⟩
  have hmem := reach_mem_of_closed H V p visited hinv.start_mem
    (fun x hx y hy => (hinv.vis_closed x hx (by simp)).2 y hy) q hq
  exact (hinv.vis_closed q hmem (by simp)).1 hg

lemma BfsInv.expand (H V : Finset Cell) (gr gc : Option ℤ) (p : Cell)
    (r c : ℤ) (rest : List Cell) (visited : Finset Cell)
    (hinv : BfsInv H V gr gc p ((r, c) :: rest) visited)
    (hg : ¬ atGoal gr gc r c)
    (l : List Cell)
    (hnd : l.Nodup) (hfresh : ∀ x ∈ l, x ∉ visited)
    (hnbr : ∀ x ∈ l, ∃ d ∈ directions, x = (r + d.1, c + d.2) ∧ inBounds x.1 x.2 ∧
      ¬ wallBlocked H V r c d.1 d.2)
    (hcl : ∀ d ∈ directions, inBounds (r + d.1) (c + d.2) →
      ¬ wallBlocked H V r c d.1 d.2 → (r + d.1, c + d.2) ∈ visited ∪ l.toFinset) :
    BfsInv H V gr gc p (rest ++ l) (visited ∪ l.toFinset) := by
  have hrc : (r, c) ∈ visited := hinv.queue_sub _ (List.mem_cons_self _ _)
  have hstep_of_mem : ∀ x ∈ l, move_step H V (r, c) x := by
    intro x hx
    obtain ⟨d, hd, hx1, hx2, hx3⟩ := hnbr x hx
    exact ⟨d, hd, hx1, hx1 ▸ hx2, hx3⟩
  refine ⟨Finset.mem_union_left _ hinv.start_mem, ?_, ?_, ?_, ?_, ?_⟩
  · intro x hx
    rcases List.mem_append.mp hx with hx | hx
    · exact Finset.mem_union_left _ (hinv.queue_sub _ (List.mem_cons_of_mem _ hx))
    · exact Finset.mem_union_right _ (List.mem_toFinset.mpr hx)
  · refine List.Nodup.append (List.Nodup.of_cons hinv.queue_nodup) hnd ?_
    intro x hx hxl
    exact hfresh _ hxl (hinv.queue_sub _ (List.mem_cons_of_mem _ hx))
  · intro x hx
    rcases Finset.mem_union.mp hx with hx | hx
    · exact hinv.vis_reach _ hx
    · exact Relation.ReflTransGen.tail (hinv.vis_reach _ hrc)
        (hstep_of_mem _ (List.mem_toFinset.mp hx))
  · intro x hx hxq
    rcases Finset.mem_union.mp hx with hx | hx
    · by_cases hxrc : x = (r, c)
      · subst hxrc
        refine ⟨hg, ?_⟩
        intro y hy
        obtain ⟨d, hd, hy1, hy2, hy3⟩ := hy
        subst hy1
        exact hcl d hd hy2 hy3
      · have hxrest : x ∉ rest := fun hr => hxq (List.mem_append.mpr (Or.inl hr))
        have hold := hinv.vis_closed x hx (by
          intro hmem
          rcases List.mem_cons.mp hmem with h | h
          · exact hxrc h
          · exact hxrest h)
        exact ⟨hold.1, fun y hy => Finset.mem_union_left _ (hold.2 y hy)⟩
    · exact absurd (List.mem_append.mpr (Or.inr (List.mem_toFinset.mp hx))) hxq
  · refine Finset.union_subset hinv.vis_allowed ?_
    intro x hx
    obtain ⟨_, _, _, hb, _⟩ := hnbr x (List.mem_toFinset.mp hx)
    exact mem_allowed_of_inBounds p x hb

lemma bfsAux_iff (H V : Finset Cell) (gr gc : Option ℤ) (p : Cell) :
    ∀ fuel queue visited, BfsInv H V gr gc p queue visited →
      queue.length + 2 * (allowed_cells p).card ≤ fuel + 2 * visited.card →
      (bfsAux H V gr gc fuel queue visited = true ↔ reaches_goal H V gr gc p) := by
  intro fuel
  induction fuel with
  | zero =>
      intro queue visited hinv hfuel
      have hcard : visited.card ≤ (allowed_cells p).card :=
        Finset.card_le_card hinv.vis_allowed
      have hq : queue = [] := List.length_eq_zero.mp (by omega)
      subst hq
      exact iff_of_false (by simp [bfsAux]) (not_reaches_of_inv_nil H V gr gc p visited hinv)
  | succ fuel ih =>
      intro queue visited hinv hfuel
      cases queue with
      | nil =>
          exact iff_of_false (by simp [bfsAux])
            (not_reaches_of_inv_nil H V gr gc p visited hinv)
      | cons head rest =>
          obtain ⟨r, c⟩ := head
          by_cases hg : atGoal gr gc r c
          · refine iff_of_true (by simp [bfsAux, hg]) ?_
            exact ⟨(r, c), hinv.vis_reach _ (hinv.queue_sub _ (List.mem_cons_self _ _)), hg⟩
          · obtain ⟨l, heq, hnd, hfresh, hnbr, hcl⟩ :=
              bfs_expand_spec H V r c directions rest visited
            have hrw : bfsAux H V gr gc (fuel + 1) ((r, c) :: rest) visited =
                bfsAux H V gr gc fuel (rest ++ l) (visited ∪ l.toFinset) := by
              simp only [bfsAux, if_neg hg, heq]
            rw [hrw]
            apply ih
            · exact BfsInv.expand H V gr gc p r c rest visited hinv hg l hnd hfresh hnbr hcl
            · have hdisj : Disjoint visited l.toFinset := by
                rw [Finset.disjoint_right]
                intro a ha
                exact hfresh a (List.mem_toFinset.mp ha)
              have hcard : (visited ∪ l.toFinset).card = visited.card + l.length := by
                rw [Finset.card_union_of_disjoint hdisj, List.toFinset_card_of_nodup hnd]
              have hlen : ((r, c) :: rest).length = rest.length + 1 := by simp
              rw [List.length_append, hcard]
              omega

/-- BFS reachability correctness for an arbitrary start cell and goal pair. -/
theorem find_path_from_iff (H V : Finset Cell) (gr gc : Option ℤ) (p : Cell) :
    find_path_from H V gr gc p = true ↔ reaches_goal H V gr gc p := by
  apply bfsAux_iff
  · refine ⟨Finset.mem_singleton_self p, by simp, by simp, ?_, ?_, ?_⟩
    · intro x hx
      rw [Finset.mem_singleton] at hx
      subst hx
      exact Relation.ReflTransGen.refl
    · intro x hx hq
      rw [Finset.mem_singleton] at hx
      subst hx
      simp at hq
    · intro x hx
      rw [Finset.mem_singleton] at hx
      subst hx
      exact Finset.mem_insert_self _ _
  · have := allowed_cells_card p
    simp only [List.length_singleton, Finset.card_singleton]
    omega

@[simp] lemma next_turn_numPlayers (s : GameState) : (next_turn s).numPlayers = s.numPlayers := by
  unfold next_turn; split_ifs <;> rfl

@[simp] lemma next_turn_playerPositions (s : GameState) :
    (next_turn s).playerPositions = s.playerPositions := by
  unfold next_turn; split_ifs <;> rfl

@[simp] lemma next_turn_winRows (s : GameState) : (next_turn s).winRows = s.winRows := by
  unfold next_turn; split_ifs <;> rfl

@[simp] lemma next_turn_winCols (s : GameState) : (next_turn s).winCols = s.winCols := by
  unfold next_turn; split_ifs <;> rfl

@[simp] lemma next_turn_wallsRemaining (s : GameState) :
    (next_turn s).wallsRemaining = s.wallsRemaining := by
  unfold next_turn; split_ifs <;> rfl

@[simp] lemma next_turn_playerWalls (s : GameState) :
    (next_turn s).playerWalls = s.playerWalls := by
  unfold next_turn; split_ifs <;> rfl

@[simp] lemma next_turn_horizontalWalls (s : GameState) :
    (next_turn s).horizontalWalls = s.horizontalWalls := by
  unfold next_turn; split_ifs <;> rfl

@[simp] lemma next_turn_verticalWalls (s : GameState) :
    (next_turn s).verticalWalls = s.verticalWalls := by
  unfold next_turn; split_ifs <;> rfl

@[simp] lemma next_turn_gameOver (s : GameState) : (next_turn s).gameOver = s.gameOver := by
  unfold next_turn; split_ifs <;> rfl

@[simp] lemma next_turn_winner (s : GameState) : (next_turn s).winner = s.winner := by
  unfold next_turn; split_ifs <;> rfl

lemma valid_imp_paths_ok (s : GameState) (r c : ℤ) (t : WallType)
    (h : is_valid_wall_placement s r c t = true) : wall_paths_ok s r c t = true := by
  unfold is_valid_wall_placement at h
  split_ifs at h
  exact h

lemma wall_paths_ok_spec (s : GameState) (r c : ℤ) (t : WallType)
    (h : wall_paths_ok s r c t = true) :
    ∀ i < s.numPlayers, ¬ player_on_goal s i →
      find_path_to_goal s i (trial_h s r c t) (trial_v s r c t) = true := by
  intro i hi hg
  have := List.all_eq_true.mp h i (List.mem_range.mpr hi)
  simpa [if_neg hg] using this

lemma place_wall_success_spec (s : GameState) (r c : ℤ) (t : WallType)
    (h : (place_wall s r c t).1 = true) :
    is_valid_wall_placement s r c t = true ∧
    (place_wall s r c t).2.horizontalWalls = trial_h s r c t ∧
    (place_wall s r c t).2.verticalWalls = trial_v s r c t ∧
    (place_wall s r c t).2.playerPositions = s.playerPositions ∧
    (place_wall s r c t).2.winRows = s.winRows ∧
    (place_wall s r c t).2.winCols = s.winCols ∧
    (place_wall s r c t).2.numPlayers = s.numPlayers := by
  unfold place_wall at h ⊢
  split_ifs at h ⊢ with h1 h2
  cases t <;> simp_all [trial_h, trial_v]

/-- C2: for every player index and every pair of wall sets, find_path_to_goal
returns true exactly when a sequence of in-bounds, un-wall-blocked orthogonal
single steps leads from that player's current cell to a cell satisfying the
player's goal predicate (goal row or goal column). -/
theorem find_path_to_goal_iff_reachable (s : GameState) (i : ℕ) (H V : Finset Cell) :
    find_path_to_goal s i H V = true ↔
      ∃ q : Cell,
        Relation.ReflTransGen (move_step H V) (s.playerPositions.getD i (0, 0)) q ∧
        atGoal (s.winRows.getD i none) (s.winCols.getD i none) q.1 q.2 :=
  find_path_from_iff H V (s.winRows.getD i none) (s.winCols.getD i none)
    (s.playerPositions.getD i (0, 0))

/-- C1: in any reachable state, whenever place_wall accepts a wall, every
player not already on their goal still has a path of orthogonal, in-bounds,
un-wall-blocked steps from their current cell to a goal cell in the resulting
state; equivalently, a wall that would cut off some such player is never
accepted. -/
theorem accepted_wall_preserves_goal_paths (n : ℕ) (s : GameState) (_hs : Reachable n s)
    (r c : ℤ) (t : WallType) (hacc : (place_wall s r c t).1 = true) :
    ∀ i < (place_wall s r c t).2.numPlayers, ¬ player_on_goal s i →
      ∃ q : Cell,
        Relation.ReflTransGen
          (move_step (place_wall s r c t).2.horizontalWalls
            (place_wall s r c t).2.verticalWalls)
          ((place_wall s r c t).2.playerPositions.getD i (0, 0)) q ∧
        atGoal ((place_wall s r c t).2.winRows.getD i none)
          ((place_wall s r c t).2.winCols.getD i none) q.1 q.2 := by
  obtain ⟨hvalid, hH, hV, hpos, hwr, hwc, hnum⟩ := place_wall_success_spec s r c t hacc
  intro i hi hg
  rw [hnum] at hi
  have hpath := wall_paths_ok_spec s r c t (valid_imp_paths_ok s r c t hvalid) i hi hg
  rw [find_path_to_goal] at hpath
  obtain ⟨q, hq, hgq⟩ := (find_path_from_iff _ _ _ _ _).mp hpath
  rw [hH, hV, hpos, hwr, hwc]
  exact ⟨q, hq, hgq⟩

/-- Closed instance of the C1 theorem: from the initial two-player state,
placing a horizontal wall at (0, 0) is accepted and player 0, who is not on
their goal, still has a path to goal row 0. -/
theorem accepted_wall_preserves_goal_paths_witness :
    ∃ q : Cell,
      Relation.ReflTransGen
        (move_step (place_wall (initialize_game 2) 0 0 WallType.horizontal).2.horizontalWalls
          (place_wall (initialize_game 2) 0 0 WallType.horizontal).2.verticalWalls)
        ((place_wall (initialize_game 2) 0 0
          WallType.horizontal).2.playerPositions.getD 0 (0, 0)) q ∧
      atGoal ((place_wall (initialize_game 2) 0 0 WallType.horizontal).2.winRows.getD 0 none)
        ((place_wall (initialize_game 2) 0 0 WallType.horizontal).2.winCols.getD 0 none)
        q.1 q.2 :=
  accepted_wall_preserves_goal_paths 2 (initialize_game 2) Reachable.init 0 0
    WallType.horizontal (by decide) 0 (by decide) (by decide)

/-- C3: in a non-terminal state, move_player fails exactly when the requested
cell is not in the current player's possible-move list; on success it writes
the new position, and either records the win (goal reached) or advances the
current player index cyclically. -/
theorem move_player_characterization (s : GameState) (r c : ℤ) (h : s.gameOver = false) :
    (((move_player s r c).1 = false) ↔ (r, c) ∉ get_possible_moves s) ∧
    ((r, c) ∈ get_possible_moves s →
      (move_player s r c).2.playerPositions = s.playerPositions.set s.currentPlayer (r, c) ∧
      (atGoal (s.winRows.getD s.currentPlayer none) (s.winCols.getD s.currentPlayer none) r c →
        (move_player s r c).2.gameOver = true ∧
        (move_player s r c).2.winner = some s.currentPlayer) ∧
      (¬ atGoal (s.winRows.getD s.currentPlayer none)
          (s.winCols.getD s.currentPlayer none) r c →
        (move_player s r c).2.gameOver = false ∧
        (move_player s r c).2.currentPlayer = (s.currentPlayer + 1) % s.numPlayers)) := by
  unfold move_player
  by_cases hmem : (r, c) ∈ get_possible_moves s
  · rw [if_neg (not_not_intro hmem)]
    by_cases hg : atGoal (s.winRows.getD s.currentPlayer none)
        (s.winCols.getD s.currentPlayer none) r c
    · rw [if_pos hg]
      exact ⟨by simp [hmem], fun _ => ⟨rfl, fun _ => ⟨rfl, rfl⟩, fun hng => absurd hg hng⟩⟩
    · rw [if_neg hg]
      refine ⟨by simp [hmem], fun _ => ⟨by simp, fun hg2 => absurd hg2 hg, fun _ => ⟨?_, ?_⟩⟩⟩
      · simp [h]
      · simp only [next_turn]
        rw [if_neg (by simpa using h)]
  · rw [if_pos hmem]
    exact ⟨by simp [hmem], fun hm => absurd hm hmem⟩

/-- Closed instance of the C3 theorem: from the initial two-player state,
moving to (7, 4) succeeds, does not end the game, and hands the turn to
player 1. -/
theorem move_player_characterization_witness :
    (move_player (initialize_game 2) 7 4).2.gameOver = false ∧
    (move_player (initialize_game 2) 7 4).2.currentPlayer = 1 :=
  ((move_player_characterization (initialize_game 2) 7 4 (by decide)).2
    (by decide)).2.2 (by decide)

lemma move_player_fail_eq (s : GameState) (r c : ℤ)
    (h : (move_player s r c).1 = false) : (move_player s r c).2 = s := by
  unfold move_player at h ⊢
  split_ifs at h ⊢
  simp_all

lemma place_wall_fail_eq (s : GameState) (r c : ℤ) (t : WallType)
    (h : (place_wall s r c t).1 = false) : (place_wall s r c t).2 = s := by
  unfold place_wall at h ⊢
  split_ifs at h ⊢ <;> simp_all

/-- C7: a rejected move_player or place_wall call returns the state it was
given, unchanged in every field. -/
theorem rejected_calls_leave_state_unchanged :
    ∀ (s : GameState) (r c : ℤ) (t : WallType),
      ((move_player s r c).1 = false → (move_player s r c).2 = s) ∧
      ((place_wall s r c t).1 = false → (place_wall s r c t).2 = s) :=
  fun s r c t =>
    ⟨fun h => move_player_fail_eq s r c h, fun h => place_wall_fail_eq s r c t h⟩

/-- Closed instance of the C7 theorem: an illegal move and an out-of-bounds
wall request on the initial two-player state both leave it unchanged. -/
theorem rejected_calls_leave_state_unchanged_witness :
    (move_player (initialize_game 2) 0 0).2 = initialize_game 2 ∧
    (place_wall (initialize_game 2) (-1) 0 WallType.horizontal).2 = initialize_game 2 :=
  ⟨(rejected_calls_leave_state_unchanged (initialize_game 2) 0 0 WallType.horizontal).1
      (by decide),
    (rejected_calls_leave_state_unchanged (initialize_game 2) (-1) 0 WallType.horizontal).2
      (by decide)⟩

lemma place_wall_playerPositions (s : GameState) (r c : ℤ) (t : WallType) :
    (place_wall s r c t).2.playerPositions = s.playerPositions := by
  cases t <;> (unfold place_wall; split_ifs <;> simp)

lemma place_wall_fixed_fields (s : GameState) (r c : ℤ) (t : WallType) :
    (place_wall s r c t).2.numPlayers = s.numPlayers ∧
    (place_wall s r c t).2.wallsRemaining.length = s.wallsRemaining.length ∧
    (place_wall s r c t).2.playerWalls.length = s.playerWalls.length ∧
    (place_wall s r c t).2.gameOver = s.gameOver := by
  cases t <;> (unfold place_wall; split_ifs <;> simp)

lemma move_player_fixed_fields (s : GameState) (r c : ℤ) :
    (move_player s r c).2.numPlayers = s.numPlayers ∧
    (move_player s r c).2.wallsRemaining = s.wallsRemaining ∧
    (move_player s r c).2.playerWalls = s.playerWalls ∧
    (move_player s r c).2.horizontalWalls = s.horizontalWalls ∧
    (move_player s r c).2.verticalWalls = s.verticalWalls := by
  unfold move_player
  split_ifs <;> simp

lemma diag_fold_mem (s : GameState) (nr nc : ℤ) (sds : List (ℤ × ℤ)) :
    ∀ acc x, x ∈ sds.foldl (diag_step s nr nc) acc →
      x ∈ acc ∨ ∃ sd ∈ sds, x = (nr + sd.1, nc + sd.2) ∧ inBounds x.1 x.2 ∧
        x ∉ s.playerPositions := by
  induction sds with
  | nil => exact fun acc x hx => Or.inl hx
  | cons sd sds ih =>
      intro acc x hx
      rcases ih (diag_step s nr nc acc sd) x hx with hx | ⟨sd1, hsd1, h1, h2, h3⟩
      · unfold diag_step at hx
        split_ifs at hx with hb hw hp
        · exact Or.inl hx
        · exact Or.inl hx
        · rcases List.mem_append.mp hx with hx | hx
          · exact Or.inl hx
          · rw [List.mem_singleton] at hx
            subst hx
            exact Or.inr ⟨sd, List.mem_cons_self _ _, rfl, hb, hp⟩
        · exact Or.inl hx
      · exact Or.inr ⟨sd1, List.mem_cons_of_mem _ hsd1, h1, h2, h3⟩

lemma side_dirs_offsets (d : ℤ × ℤ) (hd : d ∈ directions) (sd : ℤ × ℤ)
    (hsd : sd ∈ side_dirs d.1 d.2) :
    d.1 + sd.1 = d.1 ∧ d.2 + sd.2 = d.2 ∨ d.1 + sd.1 = 3 * d.1 ∧ d.2 + sd.2 = 3 * d.2 := by
  fin_cases hd <;>
    (simp only [side_dirs] at hsd
     norm_num at hsd
     rcases hsd with rfl | rfl <;> norm_num)

lemma moves_in_dir_spec (s : GameState) (d : ℤ × ℤ) (hd : d ∈ directions)
    (p : Cell) (hp : p = s.playerPositions.getD s.currentPlayer (0, 0)) :
    ∀ x ∈ moves_in_dir s d,
      inBounds x.1 x.2 ∧ x ∉ s.playerPositions ∧
      (x.1 = p.1 + d.1 ∧ x.2 = p.2 + d.2 ∨
       x.1 = p.1 + 2 * d.1 ∧ x.2 = p.2 + 2 * d.2 ∨
       x.1 = p.1 + 3 * d.1 ∧ x.2 = p.2 + 3 * d.2) := by
  intro x hx
  rw [moves_in_dir, ← hp] at hx
  split_ifs at hx with h1 h2 h3 h4 h5 h6
  · simp at hx
  · simp at hx
  · simp at hx
  · rw [List.mem_singleton] at hx
    subst hx
    exact ⟨h4, h6, Or.inr (Or.inl ⟨by omega, by omega⟩)⟩
  · rcases diag_fold_mem s (p.1 + d.1) (p.2 + d.2) (side_dirs d.1 d.2) [] x hx with
      hx | ⟨sd, hsd, hxe, hxb, hxp⟩
    · simp at hx
    · subst hxe
      rcases side_dirs_offsets d hd sd hsd with ⟨e1, e2⟩ | ⟨e1, e2⟩
      · exact ⟨hxb, hxp, Or.inl ⟨by omega, by omega⟩⟩
      · exact ⟨hxb, hxp, Or.inr (Or.inr ⟨by omega, by omega⟩)⟩
  · rw [List.mem_singleton] at hx
    subst hx
    exact ⟨h1, h3, Or.inl ⟨by omega, by omega⟩⟩
  · simp at hx

lemma get_possible_moves_spec (s : GameState) (x : Cell) (hx : x ∈ get_possible_moves s) :
    inBounds x.1 x.2 ∧ x ∉ s.playerPositions := by
  obtain ⟨d, hd, hxd⟩ := List.mem_flatMap.mp hx
  obtain ⟨h1, h2, _⟩ := moves_in_dir_spec s d hd _ rfl x hxd
  exact ⟨h1, h2⟩

lemma nodup_set_of_not_mem {α : Type} : ∀ (l : List α) (i : ℕ) (x : α),
    l.Nodup → x ∉ l → (l.set i x).Nodup := by
  intro l
  induction l with
  | nil => intro i x _ _; simp
  | cons a l ih =>
      intro i x hnd hx
      cases i with
      | zero =>
          rw [List.set_cons_zero]
          exact List.Nodup.cons (fun h => hx (List.mem_cons_of_mem _ h))
            (List.Nodup.of_cons hnd)
      | succ i =>
          rw [List.set_cons_succ]
          refine List.Nodup.cons ?_ (ih i x (List.Nodup.of_cons hnd) ?_)
          · intro h
            rcases List.mem_or_eq_of_mem_set h with h | h
            · exact (List.nodup_cons.mp hnd).1 h
            · exact hx (h ▸ List.mem_cons_self _ _)
          · intro h
            exact hx (List.mem_cons_of_mem _ h)

lemma move_player_playerPositions_cases (s : GameState) (r c : ℤ) :
    (move_player s r c).2.playerPositions = s.playerPositions ∨
    ((r, c) ∈ get_possible_moves s ∧
      (move_player s r c).2.playerPositions =
        s.playerPositions.set s.currentPlayer (r, c)) := by
  unfold move_player
  split_ifs with h1 h2
  · exact Or.inr ⟨h1, by simp⟩
  · exact Or.inr ⟨h1, by simp⟩
  · exact Or.inl rfl

lemma reachable_positions_nodup (n : ℕ) (s : GameState) (hs : Reachable n s) :
    s.playerPositions.Nodup := by
  induction hs with
  | init =>
      exact List.Nodup.sublist (List.take_sublist _ _) (by decide)
  | move s r c _ ih =>
      rcases move_player_playerPositions_cases s r c with h | ⟨hm, h⟩
      · rw [h]; exact ih
      · rw [h]
        exact nodup_set_of_not_mem _ _ _ ih (get_possible_moves_spec s (r, c) hm).2
  | wall s r c t _ ih =>
      rw [place_wall_playerPositions]
      exact ih

/-- C9: in every reachable state no two players occupy the same cell, and
every destination get_possible_moves produces (straight move, jump or
diagonal branch alike) is a cell occupied by no player, so a successful move
never lands on an occupied cell. -/
theorem players_never_share_a_cell :
    (∀ (n : ℕ) (s : GameState), Reachable n s → s.playerPositions.Pairwise (· ≠ ·)) ∧
    (∀ (s : GameState) (m : Cell), m ∈ get_possible_moves s → m ∉ s.playerPositions) :=
  ⟨fun n s hs => reachable_positions_nodup n s hs,
   fun s m hm => (get_possible_moves_spec s m hm).2⟩

/-- Closed instance of the C9 theorem: the initial two-player positions are
pairwise distinct. -/
theorem players_never_share_a_cell_witness :
    (initialize_game 2).playerPositions.Pairwise (· ≠ ·) :=
  players_never_share_a_cell.1 2 (initialize_game 2) Reachable.init

lemma play_moves_reachable (n : ℕ) (ms : List Cell) :
    ∀ s : GameState, Reachable n s → Reachable n (play_moves s ms) := by
  induction ms with
  | nil => exact fun s hs => hs
  | cons m ms ih => exact fun s hs => ih _ (Reachable.move s m.1 m.2 hs)

/-- A reachable terminal state: player 0 walks from (8, 4) to goal row 0 while
player 1 shuffles along row 0; the final move wins the game for player 0. -/
def post_win_state : GameState :=
  play_moves (initialize_game 2)
    [(7, 4), (0, 3), (6, 4), (0, 2), (5, 4), (0, 3), (4, 4), (0, 2), (3, 4), (0, 3),
     (2, 4), (0, 2), (1, 4), (0, 3), (0, 4)]

/-- C4 counterexample: post_win_state is reachable and terminal (game over,
winner recorded), yet move_player still accepts a move there and changes the
state, instead of failing; the game-over guard exists only in the UI event
loop of maze.py, not in move_player or place_wall. -/
theorem terminal_state_mutation_counterexample :
    Reachable 2 post_win_state ∧
    post_win_state.gameOver = true ∧
    post_win_state.winner = some 0 ∧
    (move_player post_win_state 1 4).1 = true ∧
    (move_player post_win_state 1 4).2 ≠ post_win_state :=
  ⟨play_moves_reachable 2 _ _ Reachable.init, by decide, by decide, by decide, by decide⟩

/-- C4 amended: move_player and place_wall do not consult the terminal flag;
in a terminal state they accept or reject by the same rules as mid-game, and a
rejected call still leaves the state unchanged.  (The original claim that they
always fail after a winner is determined is refuted by the counterexample.) -/
theorem terminal_state_mutation_amended (s : GameState) (r c : ℤ) (t : WallType)
    (_hterm : s.gameOver = true) :
    ((move_player s r c).1 = false ↔ (r, c) ∉ get_possible_moves s) ∧
    ((move_player s r c).1 = false → (move_player s r c).2 = s) ∧
    ((place_wall s r c t).1 = false → (place_wall s r c t).2 = s) := by
  refine ⟨?_, ?_, ?_⟩
  · unfold move_player
    split_ifs with h1 <;> simp_all
  · unfold move_player
    split_ifs <;> simp
  · unfold place_wall
    split_ifs <;> simp

/-- Closed instance of the C4 amended theorem: in the terminal state, the
rejected move (9, 9) leaves the state unchanged. -/
theorem terminal_state_mutation_amended_witness :
    (move_player post_win_state 9 9).2 = post_win_state :=
  (terminal_state_mutation_amended post_win_state 9 9 WallType.horizontal (by decide)).2.1
    (by decide)

/-- A reachable state in which it is player 1's turn, player 1 at (7, 0)
stands directly above player 0 at (8, 0), and the straight jump to (9, 0)
would leave the board. -/
def offboard_jump_state : GameState :=
  play_moves (initialize_game 2)
    [(8, 3), (1, 4), (8, 2), (2, 4), (8, 1), (3, 4), (8, 0), (4, 4), (8, 1), (5, 4),
     (8, 0), (6, 4), (8, 1), (7, 4), (8, 0), (7, 3), (8, 1), (7, 2), (8, 0), (7, 1),
     (8, 1), (7, 0), (8, 0)]

/-- C6 evaluation at the failing input: in offboard_jump_state the spec
requires the diagonal side-jump (8, 1) — it is in bounds, the half-step from
the occupied neighbour (8, 0) is not wall-blocked, and it is unoccupied — but
get_possible_moves returns only the plain moves [(6, 0), (7, 1)].  The side
directions computed at maze.py line 147 are (dr+1, dc) and (dr-1, dc), which
for an axial direction are never the perpendicular diagonals, so the fallback
announced by the comment at line 146 can never produce a move. -/
theorem diagonal_fallback_missing_eval :
    Reachable 2 offboard_jump_state ∧
    offboard_jump_state.playerPositions = [(8, 0), (7, 0)] ∧
    offboard_jump_state.currentPlayer = 1 ∧
    get_possible_moves offboard_jump_state = [(6, 0), (7, 1)] ∧
    inBounds 8 1 ∧
    ¬ wallBlocked offboard_jump_state.horizontalWalls offboard_jump_state.verticalWalls
      8 0 0 1 ∧
    ((8 : ℤ), (1 : ℤ)) ∉ offboard_jump_state.playerPositions ∧
    ((8 : ℤ), (1 : ℤ)) ∉ get_possible_moves offboard_jump_state :=
  ⟨play_moves_reachable 2 _ _ Reachable.init, by decide, by decide, by decide, by decide,
    by decide, by decide, by decide⟩

/-- The concrete configuration of the spec's jump example: player A at (4, 4),
player B at (3, 4), no walls, A to move. -/
def jump_example_state : GameState where
  numPlayers := 2
  playerPositions := [(4, 4), (3, 4)]
  winRows := [some 0, some 8]
  winCols := [none, none]
  wallsRemaining := [10, 10]
  playerWalls := [[], []]
  horizontalWalls := ∅
  verticalWalls := ∅
  currentPlayer := 0
  gameOver := false
  winner := none

lemma jump_branch_inversion (s : GameState) (d : ℤ × ℤ) (hd : d ∈ directions)
    (p : Cell) (hp : p = s.playerPositions.getD s.currentPlayer (0, 0))
    (hx : (p.1 + d.1 + d.1, p.2 + d.2 + d.2) ∈ moves_in_dir s d) :
    inBounds (p.1 + d.1 + d.1) (p.2 + d.2 + d.2) ∧
    ¬ wallBlocked s.horizontalWalls s.verticalWalls (p.1 + d.1) (p.2 + d.2) d.1 d.2 ∧
    (p.1 + d.1 + d.1, p.2 + d.2 + d.2) ∉ s.playerPositions := by
  rw [moves_in_dir, ← hp] at hx
  split_ifs at hx with h1 h2 h3 h4 h5 h6
  · simp at hx
  · simp at hx
  · simp at hx
  · rw [List.mem_singleton] at hx
    exact ⟨h4, h5, h6⟩
  · exfalso
    rcases diag_fold_mem s (p.1 + d.1) (p.2 + d.2) (side_dirs d.1 d.2) [] _ hx with
      hx | ⟨sd, hsd, hxe, _, _⟩
    · simp at hx
    · rw [Prod.mk.injEq] at hxe
      rcases side_dirs_offsets d hd sd hsd with ⟨e1, e2⟩ | ⟨e1, e2⟩ <;>
        (fin_cases hd <;> omega)
  · exfalso
    rw [List.mem_singleton, Prod.mk.injEq] at hx
    fin_cases hd <;> omega
  · simp at hx

lemma moves_in_dir_jump_eq (s : GameState) (d : ℤ × ℤ)
    (p : Cell) (hp : p = s.playerPositions.getD s.currentPlayer (0, 0))
    (hb : inBounds (p.1 + d.1) (p.2 + d.2))
    (hw : ¬ wallBlocked s.horizontalWalls s.verticalWalls p.1 p.2 d.1 d.2)
    (hocc : (p.1 + d.1, p.2 + d.2) ∈ s.playerPositions)
    (hbj : inBounds (p.1 + d.1 + d.1) (p.2 + d.2 + d.2)) :
    (wallBlocked s.horizontalWalls s.verticalWalls (p.1 + d.1) (p.2 + d.2) d.1 d.2 →
      moves_in_dir s d = []) ∧
    (¬ wallBlocked s.horizontalWalls s.verticalWalls (p.1 + d.1) (p.2 + d.2) d.1 d.2 →
      (p.1 + d.1 + d.1, p.2 + d.2 + d.2) ∈ s.playerPositions → moves_in_dir s d = []) ∧
    (¬ wallBlocked s.horizontalWalls s.verticalWalls (p.1 + d.1) (p.2 + d.2) d.1 d.2 →
      (p.1 + d.1 + d.1, p.2 + d.2 + d.2) ∉ s.playerPositions →
      moves_in_dir s d = [(p.1 + d.1 + d.1, p.2 + d.2 + d.2)]) := by
  rw [moves_in_dir, ← hp]
  rw [if_neg (not_not_intro hb), if_neg hw, if_pos hocc, if_neg (not_not_intro hbj)]
  refine ⟨fun hw2 => by rw [if_pos hw2], fun hw2 hoc2 => ?_, fun hw2 hoc2 => ?_⟩
  · rw [if_neg hw2, if_pos hoc2]
  · rw [if_neg hw2, if_neg hoc2]

/-- C5: when the neighbour in an orthogonal direction is in bounds, reachable
(first half-step not wall-blocked) and occupied by another player, the cell two
steps further in that direction is a legal destination exactly when it is in
bounds, the second half-step is not wall-blocked, and it is unoccupied; a
wall-blocked in-bounds jump makes the direction contribute no destination at
all (no diagonal fallback); and the occupied neighbour cell itself is never a
legal destination.  In the spec's concrete example — A at (4, 4), B at (3, 4),
no walls — A's legal moves include (2, 4) and exclude (3, 4). -/
theorem straight_jump_rule :
    (∀ (s : GameState) (d : ℤ × ℤ), d ∈ directions →
      ∀ p, p = s.playerPositions.getD s.currentPlayer (0, 0) →
      inBounds (p.1 + d.1) (p.2 + d.2) →
      ¬ wallBlocked s.horizontalWalls s.verticalWalls p.1 p.2 d.1 d.2 →
      (p.1 + d.1, p.2 + d.2) ∈ s.playerPositions →
      (((p.1 + d.1 + d.1, p.2 + d.2 + d.2) ∈ get_possible_moves s ↔
          inBounds (p.1 + d.1 + d.1) (p.2 + d.2 + d.2) ∧
          ¬ wallBlocked s.horizontalWalls s.verticalWalls (p.1 + d.1) (p.2 + d.2) d.1 d.2 ∧
          (p.1 + d.1 + d.1, p.2 + d.2 + d.2) ∉ s.playerPositions) ∧
        (inBounds (p.1 + d.1 + d.1) (p.2 + d.2 + d.2) →
          wallBlocked s.horizontalWalls s.verticalWalls (p.1 + d.1) (p.2 + d.2) d.1 d.2 →
          moves_in_dir s d = []) ∧
        (p.1 + d.1, p.2 + d.2) ∉ get_possible_moves s)) ∧
    ((2, 4) ∈ get_possible_moves jump_example_state ∧
     (3, 4) ∉ get_possible_moves jump_example_state) := by
  constructor
  · intro s d hd p hp hb hw hocc
    refine ⟨⟨?_, ?_⟩, ?_, ?_⟩
    · intro hjmem
      obtain ⟨d1, hd1, hxd1⟩ := List.mem_flatMap.mp hjmem
      obtain ⟨_, _, hoff⟩ := moves_in_dir_spec s d1 hd1 p hp _ hxd1
      have hdd : d1 = d := by
        fin_cases hd <;> fin_cases hd1 <;>
          first
            | rfl
            | (exfalso
               rcases hoff with ⟨a, b⟩ | ⟨a, b⟩ | ⟨a, b⟩ <;> omega)
      subst hdd
      exact jump_branch_inversion s d1 hd1 p hp hxd1
    · rintro ⟨hbj, hw2, hnocc⟩
      apply List.mem_flatMap.mpr
      refine ⟨d, hd, ?_⟩
      rw [(moves_in_dir_jump_eq s d p hp hb hw hocc hbj).2.2 hw2 hnocc]
      exact List.mem_singleton_self _
    · intro hbj hw2
      exact (moves_in_dir_jump_eq s d p hp hb hw hocc hbj).1 hw2
    · intro hmem
      exact (get_possible_moves_spec s _ hmem).2 hocc
  · exact ⟨by decide, by decide⟩

/-- Closed instance of the C5 theorem at the spec's example: the straight jump
(2, 4) is legal and the occupied cell (3, 4) is not. -/
theorem straight_jump_rule_witness :
    ((2 : ℤ), (4 : ℤ)) ∈ get_possible_moves jump_example_state ∧
    ((3 : ℤ), (4 : ℤ)) ∉ get_possible_moves jump_example_state := by
  have h := straight_jump_rule.1 jump_example_state (-1, 0) (by decide) ((4 : ℤ), (4 : ℤ))
    (by decide) (by decide) (by decide) (by decide)
  constructor
  · have h2 := h.1.mpr (by decide)
    simpa using h2
  · have h2 := h.2.2
    simpa using h2

/-- A state with one vertical wall anchored at (0, 0): its blocker units
(0, 0) and (1, 0) sit in the vertical wall set. -/
def crossing_example_state : GameState :=
  { jump_example_state with verticalWalls := {(0, 0), (1, 0)} }

/-- C8: after the bounds and overlap checks pass, rejection for crossing
happens exactly under the perpendicular-wall-crossing rule of maze.py lines
245-249: a horizontal candidate at (r, c) crosses precisely when both vertical
blocker units (r, c) and (r+1, c) are present, a vertical candidate precisely
when both horizontal blocker units (r, c) and (r, c+1) are present, and no
other configuration triggers the crossing rejection — when it does not hold,
validity is decided by the path check alone. -/
theorem wall_crossing_rule (s : GameState) (r c : ℤ) (t : WallType)
    (hb : wall_in_bounds r c) (ho : ¬ wall_overlaps s r c t) :
    (wall_crosses s r c t ↔
      (t = WallType.horizontal ∧ (r, c) ∈ s.verticalWalls ∧ (r + 1, c) ∈ s.verticalWalls) ∨
      (t = WallType.vertical ∧ (r, c) ∈ s.horizontalWalls ∧
        (r, c + 1) ∈ s.horizontalWalls)) ∧
    (wall_crosses s r c t → is_valid_wall_placement s r c t = false) ∧
    (¬ wall_crosses s r c t → is_valid_wall_placement s r c t = wall_paths_ok s r c t) := by
  refine ⟨?_, ?_, ?_⟩
  · cases t <;> simp [wall_crosses]
  · intro hc
    rw [is_valid_wall_placement, if_neg (not_not_intro hb), if_neg ho, if_pos hc]
  · intro hc
    rw [is_valid_wall_placement, if_neg (not_not_intro hb), if_neg ho, if_neg hc]

/-- Closed instance of the C8 theorem: a horizontal wall at (0, 0) crossing
the existing vertical wall there is rejected. -/
theorem wall_crossing_rule_witness :
    is_valid_wall_placement crossing_example_state 0 0 WallType.horizontal = false :=
  (wall_crossing_rule crossing_example_state 0 0 WallType.horizontal (by decide)
    (by decide)).2.1 (by decide)

lemma getD_set_self {α : Type} : ∀ (l : List α) (i : ℕ) (x d : α), i < l.length →
    (l.set i x).getD i d = x := by
  intro l
  induction l with
  | nil => intro i x d h; simp at h
  | cons a l ih =>
      intro i x d h
      cases i with
      | zero => rfl
      | succ i =>
          rw [List.set_cons_succ, List.getD_cons_succ]
          exact ih i x d (by simpa using h)

lemma getD_set_ne {α : Type} : ∀ (l : List α) (i j : ℕ) (x d : α), i ≠ j →
    (l.set i x).getD j d = l.getD j d := by
  intro l
  induction l with
  | nil => intro i j x d _; rfl
  | cons a l ih =>
      intro i j x d h
      cases i with
      | zero =>
          cases j with
          | zero => exact absurd rfl h
          | succ j => rw [List.set_cons_zero, List.getD_cons_succ, List.getD_cons_succ]
      | succ i =>
          cases j with
          | zero => rw [List.set_cons_succ]; rfl
          | succ j =>
              rw [List.set_cons_succ, List.getD_cons_succ, List.getD_cons_succ]
              exact ih i j x d (by omega)

lemma getD_take {α : Type} : ∀ (l : List α) (n i : ℕ) (d : α), i < n →
    (l.take n).getD i d = l.getD i d := by
  intro l
  induction l with
  | nil => intro n i d _; simp
  | cons a l ih =>
      intro n i d h
      cases n with
      | zero => omega
      | succ n =>
          rw [List.take_succ_cons]
          cases i with
          | zero => rfl
          | succ i =>
              rw [List.getD_cons_succ, List.getD_cons_succ]
              exact ih n i d (by omega)

lemma getD_replicate {α : Type} (x d : α) : ∀ (n i : ℕ), i < n →
    (List.replicate n x).getD i d = x := by
  intro n
  induction n with
  | zero => intro i h; omega
  | succ n ih =>
      intro i h
      cases i with
      | zero => rfl
      | succ i =>
          rw [List.replicate_succ, List.getD_cons_succ]
          exact ih i (by omega)

lemma move_player_currentPlayer_cases (s : GameState) (r c : ℤ) :
    (move_player s r c).2.currentPlayer = s.currentPlayer ∨
    (move_player s r c).2.currentPlayer = (s.currentPlayer + 1) % s.numPlayers := by
  unfold move_player next_turn
  dsimp only
  split_ifs <;>
    first
      | exact Or.inl rfl
      | exact Or.inr rfl

lemma place_wall_currentPlayer_cases (s : GameState) (r c : ℤ) (t : WallType) :
    (place_wall s r c t).2.currentPlayer = s.currentPlayer ∨
    (place_wall s r c t).2.currentPlayer = (s.currentPlayer + 1) % s.numPlayers := by
  cases t <;>
    (unfold place_wall next_turn
     dsimp only
     split_ifs <;>
       first
         | exact Or.inl rfl
         | exact Or.inr rfl)

lemma place_wall_zero_reject (s : GameState) (r c : ℤ) (t : WallType)
    (h : s.wallsRemaining.getD s.currentPlayer 0 ≤ 0) :
    place_wall s r c t = (false, s) := by
  unfold place_wall
  rw [if_pos h]

lemma place_wall_success_effects (s : GameState) (r c : ℤ) (t : WallType)
    (h : (place_wall s r c t).1 = true) :
    0 < s.wallsRemaining.getD s.currentPlayer 0 ∧
    (place_wall s r c t).2.wallsRemaining =
      s.wallsRemaining.set s.currentPlayer (s.wallsRemaining.getD s.currentPlayer 0 - 1) ∧
    (place_wall s r c t).2.playerWalls =
      s.playerWalls.set s.currentPlayer
        (s.playerWalls.getD s.currentPlayer [] ++ [(t, r, c)]) := by
  unfold place_wall at h ⊢
  split_ifs at h ⊢ with h1 h2
  refine ⟨by omega, ?_, ?_⟩ <;> cases t <;> simp

/-- Length and current-player bookkeeping that holds in every reachable
state. -/
def lists_wf (n : ℕ) (s : GameState) : Prop :=
  s.numPlayers = n ∧ s.wallsRemaining.length = n ∧ s.playerWalls.length = n ∧
  s.currentPlayer < n

/-- The per-player wall accounting of the claim: remaining walls are
non-negative and equal the initial allotment minus the number of placed-wall
records. -/
def inventory_ok (s : GameState) : Prop :=
  ∀ i < s.numPlayers, 0 ≤ s.wallsRemaining.getD i 0 ∧
    s.wallsRemaining.getD i 0 =
      ([10, 10, 5, 5] : List ℤ).getD i 0 - ((s.playerWalls.getD i []).length : ℤ)

lemma reachable_wf_inventory (n : ℕ) (h1 : 1 ≤ n) (h4 : n ≤ 4) (s : GameState)
    (hs : Reachable n s) : lists_wf n s ∧ inventory_ok s := by
  induction hs with
  | init =>
      constructor
      · refine ⟨rfl, ?_, ?_, h1⟩
        · show (List.take n [(10 : ℤ), 10, 5, 5]).length = n
          rw [List.length_take]
          simp
          omega
        · show (List.replicate n ([] : List (WallType × ℤ × ℤ))).length = n
          rw [List.length_replicate]
      · intro i hi
        have hi2 : i < n := hi
        simp only [initialize_game] at hi ⊢
        rw [getD_take _ _ _ _ hi2, getD_replicate _ _ _ _ hi2]
        have hi4 : i < 4 := by omega
        constructor
        · interval_cases i <;> decide
        · simp
  | move s r c _ ih =>
      obtain ⟨⟨e1, e2, e3, e4⟩, hinv⟩ := ih
      have hf := move_player_fixed_fields s r c
      constructor
      · refine ⟨by rw [hf.1, e1], by rw [hf.2.1, e2], by rw [hf.2.2.1, e3], ?_⟩
        rcases move_player_currentPlayer_cases s r c with h | h
        · rw [h]; exact e4
        · rw [h, e1]
          exact Nat.mod_lt _ (by omega)
      · intro i hi
        rw [hf.1] at hi
        rw [hf.2.1, hf.2.2.1]
        exact hinv i hi
  | wall s r c t _ ih =>
      obtain ⟨⟨e1, e2, e3, e4⟩, hinv⟩ := ih
      by_cases hsucc : (place_wall s r c t).1 = true
      · obtain ⟨hpos, hwr, hpw⟩ := place_wall_success_effects s r c t hsucc
        have hff := place_wall_fixed_fields s r c t
        constructor
        · refine ⟨by rw [hff.1, e1], by rw [hff.2.1, e2], by rw [hff.2.2.1, e3], ?_⟩
          rcases place_wall_currentPlayer_cases s r c t with h | h
          · rw [h]; exact e4
          · rw [h, e1]
            exact Nat.mod_lt _ (by omega)
        · intro i hi
          rw [hff.1] at hi
          rw [hwr, hpw]
          by_cases hic : i = s.currentPlayer
          · subst hic
            rw [getD_set_self _ _ _ _ (by omega), getD_set_self _ _ _ _ (by omega)]
            obtain ⟨hnn, heq⟩ := hinv _ hi
            rw [List.length_append, List.length_singleton]
            constructor
            · omega
            · push_cast
              omega
          · rw [getD_set_ne _ _ _ _ _ (fun he => hic he.symm),
              getD_set_ne _ _ _ _ _ (fun he => hic he.symm)]
            exact hinv i hi
      · rw [Bool.not_eq_true] at hsucc
        rw [place_wall_fail_eq s r c t hsucc]
        exact ⟨⟨e1, e2, e3, e4⟩, hinv⟩

/-- C10: in every reachable state each player's remaining wall count is
non-negative and equals the initial allotment (10, 10, 5, 5 truncated to the
player count) minus the number of that player's placed-wall records;
place_wall rejects a request when the active player's count is not positive,
returning the state unchanged; and a successful placement appends exactly one
ownership record and decrements the count by exactly one. -/
theorem wall_inventory_invariant (n : ℕ) (h1 : 1 ≤ n) (h4 : n ≤ 4) (s : GameState)
    (hs : Reachable n s) :
    (∀ i < s.numPlayers, 0 ≤ s.wallsRemaining.getD i 0 ∧
      s.wallsRemaining.getD i 0 =
        ([10, 10, 5, 5] : List ℤ).getD i 0 - ((s.playerWalls.getD i []).length : ℤ)) ∧
    (∀ (r c : ℤ) (t : WallType), s.wallsRemaining.getD s.currentPlayer 0 ≤ 0 →
      place_wall s r c t = (false, s)) ∧
    (∀ (r c : ℤ) (t : WallType), (place_wall s r c t).1 = true →
      ((place_wall s r c t).2.playerWalls.getD s.currentPlayer []).length =
        (s.playerWalls.getD s.currentPlayer []).length + 1 ∧
      (place_wall s r c t).2.wallsRemaining.getD s.currentPlayer 0 =
        s.wallsRemaining.getD s.currentPlayer 0 - 1) := by
  obtain ⟨⟨e1, e2, e3, e4⟩, hinv⟩ := reachable_wf_inventory n h1 h4 s hs
  refine ⟨hinv, fun r c t h => place_wall_zero_reject s r c t h, ?_⟩
  intro r c t hsucc
  obtain ⟨hpos, hwr, hpw⟩ := place_wall_success_effects s r c t hsucc
  rw [hwr, hpw, getD_set_self _ _ _ _ (by omega), getD_set_self _ _ _ _ (by omega)]
  exact ⟨by rw [List.length_append]; rfl, rfl⟩

/-- Closed instance of the C10 theorem: in the initial two-player state the
inventory equation holds for player 0 with ten walls and no records. -/
theorem wall_inventory_invariant_witness :
    0 ≤ (initialize_game 2).wallsRemaining.getD 0 0 ∧
    (initialize_game 2).wallsRemaining.getD 0 0 =
      ([10, 10, 5, 5] : List ℤ).getD 0 0 -
        (((initialize_game 2).playerWalls.getD 0 []).length : ℤ) :=
  (wall_inventory_invariant 2 (by decide) (by decide) (initialize_game 2)
    Reachable.init).1 0 (by decide)

end Quoridor
